import Mathlib

/-!
Shallow embedding of the SIRIUS filter-generator core
(`src/python/filter/generators.py`) and verification of the spec claims.

Floating-point arrays are modelled as lists of exact rationals (`ℚ`) for the
purely arithmetic routines, and as lists of reals (`ℝ`) for the routines that
call the transcendental numpy functions `np.sinc` and `np.exp`.  A numpy call
that raises (only `np.linspace` with a negative sample count does) is modelled
with `Option`; every other routine is total, exactly as the Python source
performs no validation.
-/

namespace Sirius

/-- Embedding of `numpy.linspace(start, stop, num)` as used by the source:
`num = 0` gives the empty list, `num = 1` gives `[start]`, `num ≥ 2` gives the
`num` evenly spaced samples `start + (stop - start) * i / (num - 1)` with both
endpoints exact, and a negative `num` raises `ValueError` (modelled as
`none`). -/
def linspace {α : Type} [Field α] (start stop : α) (num : ℤ) : Option (List α) :=
  if num < 0 then none
  else if num = 1 then some [start]
  else some ((List.range num.toNat).map
    (fun i : ℕ => start + (stop - start) * (i : α) / ((num : α) - 1)))

/-- Embedding of `_generate_x(width, samples_per_unit)`
(src/python/filter/generators.py:173-186): `samples_count = width *
samples_per_unit + 1`, then `np.linspace(-width/2, width/2, samples_count)`.
`width` and `samples_per_unit` are parsed by the CLI as integers. -/
def generate_x {α : Type} [Field α] (width spu : ℤ) : Option (List α) :=
  linspace (-(width : α) / 2) ((width : α) / 2) (width * spu + 1)

/-- Reading index `j` of a list built by mapping over `List.range n`. -/
lemma getD_range_map {β : Type} (f : ℕ → β) (n j : ℕ) (d : β) (h : j < n) :
    ((List.range n).map f).getD j d = f j := by
  have hj : j < ((List.range n).map f).length := by simpa using h
  rw [List.getD_eq_getElem _ _ hj]
  simp

/-- Length of a list built by mapping over `List.range n`. -/
lemma length_range_map {β : Type} (f : ℕ → β) (n : ℕ) :
    ((List.range n).map f).length = n := by simp

/-- Embedding of `numpy.sinc`: the normalized cardinal sine,
`sin(πx)/(πx)` with the removable singularity `sinc 0 = 1`. -/
noncomputable def sinc (x : ℝ) : ℝ :=
  if x = 0 then 1 else Real.sin (Real.pi * x) / (Real.pi * x)

/-- Embedding of the `rect_lanczos` mask built in `generate_lanczos_1d`
(src/python/filter/generators.py:51-52): an array of zeros with ones exactly
where `-a < x` and `x < a` both hold. -/
noncomputable def rect_lanczos (a : ℤ) (x : ℝ) : ℝ :=
  if -(a : ℝ) < x ∧ x < (a : ℝ) then 1 else 0

/-- Pointwise value produced by `generate_lanczos_1d`
(src/python/filter/generators.py:36-53): `sincx * sincx_a * rect_lanczos`
with `sincx_a = np.sinc(x / a)`.  Faithful for `a ≠ 0`; at `a = 0` exactly
the source's `x / a` overflows to `±inf`/NaN and `np.sinc` of that is NaN,
whose absorbing propagation (`NaN * 0.0 = NaN`) ℝ cannot represent — the
total division `x / 0 = 0` used here would give `0` instead, so no theorem
below evaluates this function at `a = 0`. -/
noncomputable def lanczos_point (a : ℤ) (x : ℝ) : ℝ :=
  sinc x * sinc (x / (a : ℝ)) * rect_lanczos a x

/-- Embedding of `generate_lanczos_1d(width, samples_per_unit, a)`: the
pointwise Lanczos formula mapped over the grid `_generate_x` builds.  The CLI
parses `a` (`kernel_size`) as an integer. -/
noncomputable def generate_lanczos_1d (width spu a : ℤ) : Option (List ℝ) :=
  (generate_x width spu).map (List.map (lanczos_point a))

/-- Loop body of `generate_bicubic_1d` (src/python/filter/generators.py:85-94):
for `|x| ≤ 1` the cubic `(a+2)|x|³ − (a+3)|x|² + 1`, for `1 < |x| ≤ 2` the
cubic `a|x|³ − 5a|x|² + 8a|x| − 4a`, else `0`. -/
def bicubic_point (a x : ℚ) : ℚ :=
  if |x| ≤ 1 then (a + 2) * |x| * |x| * |x| - (a + 3) * |x| * |x| + 1
  else if 1 < |x| ∧ |x| ≤ 2 then
    a * |x| * |x| * |x| - 5 * a * |x| * |x| + 8 * a * |x| - 4 * a
  else 0

/-- Embedding of `generate_bicubic_1d(width, samples_per_unit, a)`: the
pointwise bicubic formula mapped over the grid. -/
def generate_bicubic_1d (width spu : ℤ) (a : ℚ) : Option (List ℚ) :=
  (generate_x width spu).map (List.map (bicubic_point a))

/-- Loop body of `generate_cubicbspline_1d`
(src/python/filter/generators.py:125-134): for `0 ≤ |x| < 1` the cubic
`2/3 − |x|² + |x|³/2`, for `1 ≤ |x| < 2` the value `(2 − |x|³)/6` exactly as
written in the source, else `0`. -/
def cubicbspline_point (x : ℚ) : ℚ :=
  if 0 ≤ |x| ∧ |x| < 1 then 2 / 3 - |x| * |x| + |x| * |x| * |x| / 2
  else if 1 ≤ |x| ∧ |x| < 2 then (2 - |x| * |x| * |x|) / 6
  else 0

/-- Embedding of `generate_cubicbspline_1d(width, samples_per_unit)`: the
pointwise cubic-B-spline formula mapped over the grid. -/
def generate_cubicbspline_1d (width spu : ℤ) : Option (List ℚ) :=
  (generate_x width spu).map (List.map cubicbspline_point)

/-- Embedding of `_create_2d_separable_func(func_1d)`
(src/python/filter/generators.py:189-194): an `N×N` array with
`func_2d[p_x][p_y] = func_1d[p_x] * func_1d[p_y]`. -/
def create_2d_separable_func (f : List ℚ) : List (List ℚ) :=
  (List.range f.length).map (fun px =>
    (List.range f.length).map (fun py => f.getD px 0 * f.getD py 0))

/-- Entry `(i, j)` of a 2D kernel stored as a list of rows. -/
def entry2d (k : List (List ℚ)) (i j : ℕ) : ℚ := (k.getD i []).getD j 0

/-- Body of the doubly nested loop of `generate_gaussian_2d`
(src/python/filter/generators.py:164-169): `factor * np.exp(-(x[p_x]² +
x[p_y]²) / (2 σ²))` with `factor = 1 / (2 π σ²)`. -/
noncomputable def gaussian_entry (sigma xi xj : ℝ) : ℝ :=
  1 / (2 * Real.pi * (sigma * sigma)) *
    Real.exp (-(xi * xi + xj * xj) / (2 * (sigma * sigma)))

/-- Embedding of `generate_gaussian_2d(width, samples_per_unit, sigma)`
(src/python/filter/generators.py:152-170): the gaussian evaluated directly on
the 2D grid, one entry per coordinate pair of `_generate_x`. -/
noncomputable def generate_gaussian_2d (width spu : ℤ) (sigma : ℝ) :
    Option (List (List ℝ)) :=
  (generate_x width spu).map (fun x =>
    x.map (fun xi => x.map (fun xj => gaussian_entry sigma xi xj)))

/-- Sum of all entries of the numpy slice `filter_data[i::p]` of a 2D kernel:
the rows whose index is congruent to `i` modulo `p` (for `i < p` the slice
`i::p` selects exactly those rows), each row contributing the sum of its
entries. -/
def phase_sum (k : List (List ℚ)) (p i : ℕ) : ℚ :=
  (((List.range k.length).filter (fun j => j % p == i)).map
    (fun j => (k.getD j []).sum)).sum

/-- One iteration of the loop of `normalize_filter`
(src/python/filter/generators.py:16-17): `filter_data[i::p] /=
np.sum(filter_data[i::p]) * p`, dividing every entry of the rows selected by
the slice `i::p` by the slice's current total times `p` and leaving every
other row unchanged.  Division by an exactly-zero total is modelled by `ℚ`
division (which yields `0` where numpy yields non-finite values); in both
semantics the routine returns without signalling an error. -/
def normalize_step (p i : ℕ) (k : List (List ℚ)) : List (List ℚ) :=
  (List.range k.length).map (fun j =>
    if j % p = i then (k.getD j []).map (fun v => v / (phase_sum k p i * p))
    else k.getD j [])

/-- Embedding of `normalize_filter(filter_data, oversampling)`
(src/python/filter/generators.py:9-18): the loop `for i in range(p)` applied
to the kernel state sequentially, then the mutated kernel is returned. -/
def normalize_filter (k : List (List ℚ)) (p : ℕ) : List (List ℚ) :=
  (List.range p).foldl (fun acc i => normalize_step p i acc) k

/-- Reading every index of a list in order reproduces the list. -/
lemma map_getD_range_self {β : Type} (l : List β) (d : β) :
    (List.range l.length).map (fun j => l.getD j d) = l := by
  apply List.ext_getElem
  · simp
  · intro i h1 h2
    simp only [List.getElem_map, List.getElem_range]
    rw [List.getD_eq_getElem _ _ h2]

/-- Two kernels of the same height that agree on the rows of phase `i` have
the same phase-`i` sum. -/
lemma phase_sum_congr (k k2 : List (List ℚ)) (p i : ℕ)
    (hlen : k2.length = k.length)
    (hrow : ∀ j < k.length, j % p = i → k2.getD j [] = k.getD j []) :
    phase_sum k2 p i = phase_sum k p i := by
  unfold phase_sum
  rw [hlen]
  refine congrArg List.sum (List.map_congr_left ?_)
  intro j hj
  have hj1 : j < k.length := List.mem_range.mp (List.mem_filter.mp hj).1
  have hj2 : j % p = i := by simpa using (List.mem_filter.mp hj).2
  rw [hrow j hj1 hj2]

/-- Dividing every element of a list by a constant divides its sum by that
constant. -/
lemma sum_map_div (l : List ℚ) (c : ℚ) :
    (l.map (fun v => v / c)).sum = l.sum / c := by
  induction l with
  | nil => simp
  | cons a t ih => simp [ih, add_div]

/-- Loop invariant of `normalize_filter`: after the iterations
`i = 0, …, m-1` of the in-place loop, the rows whose phase index is below `m`
have been divided by their phase's original total times `p`, and every other
row still holds its original contents.  The phases select pairwise disjoint
row sets, so each iteration reads sums that earlier iterations never
touched. -/
lemma normalize_foldl_prefix (k : List (List ℚ)) (p m : ℕ) :
    (List.range m).foldl (fun acc i => normalize_step p i acc) k =
    (List.range k.length).map (fun j =>
      if j % p < m then
        (k.getD j []).map (fun v => v / (phase_sum k p (j % p) * p))
      else k.getD j []) := by
  induction m with
  | zero =>
    rw [List.range_zero, List.foldl_nil]
    symm
    have h0 : ∀ j ∈ List.range k.length,
        (if j % p < 0 then
          (k.getD j []).map (fun v => v / (phase_sum k p (j % p) * p))
        else k.getD j []) = k.getD j [] :=
      fun j _ => if_neg (Nat.not_lt_zero _)
    rw [List.map_congr_left h0, map_getD_range_self]
  | succ m ih =>
    rw [List.range_succ, List.foldl_append, List.foldl_cons, List.foldl_nil, ih]
    set A : List (List ℚ) := (List.range k.length).map (fun j =>
      if j % p < m then
        (k.getD j []).map (fun v => v / (phase_sum k p (j % p) * p))
      else k.getD j []) with hA
    have hAlen : A.length = k.length := length_range_map _ _
    have hAget : ∀ j < k.length, A.getD j [] =
        if j % p < m then
          (k.getD j []).map (fun v => v / (phase_sum k p (j % p) * p))
        else k.getD j [] := by
      intro j hj
      rw [hA]
      exact getD_range_map _ _ _ _ hj
    have hsum : phase_sum A p m = phase_sum k p m := by
      refine phase_sum_congr k A p m hAlen ?_
      intro j hj hjm
      rw [hAget j hj, hjm, if_neg (Nat.lt_irrefl m)]
    unfold normalize_step
    rw [hAlen]
    refine List.map_congr_left ?_
    intro j hj
    have hjk : j < k.length := List.mem_range.mp hj
    by_cases hcase : j % p = m
    · rw [if_pos hcase, hAget j hjk, hcase, if_neg (Nat.lt_irrefl m), hsum,
        if_pos (Nat.lt_succ_self m)]
    · rw [if_neg hcase, hAget j hjk]
      by_cases hlt : j % p < m
      · rw [if_pos hlt, if_pos (Nat.lt_succ_of_lt hlt)]
      · rw [if_neg hlt, if_neg (by omega)]

/-- The normalizer preserves the number of rows. -/
lemma normalize_filter_length (k : List (List ℚ)) (p : ℕ) :
    (normalize_filter k p).length = k.length := by
  rw [normalize_filter, normalize_foldl_prefix]
  exact length_range_map _ _

/-- Row `j` of the normalized kernel is the original row divided elementwise
by its phase's original total times `p`. -/
lemma normalize_filter_getD (k : List (List ℚ)) (p : ℕ) (hp : 0 < p)
    (j : ℕ) (hj : j < k.length) :
    (normalize_filter k p).getD j [] =
      (k.getD j []).map (fun v => v / (phase_sum k p (j % p) * p)) := by
  rw [normalize_filter, normalize_foldl_prefix, getD_range_map _ _ _ _ hj,
    if_pos (Nat.mod_lt j hp)]

/-- C1: for every 2D kernel and oversampling `p > 0` such that each phase's
pre-normalization sum is nonzero, `normalize_filter` divides every element of
the row subsequence `i, i+p, i+2p, …` by `s * p` with `s` that phase's
pre-normalization sum, and afterwards every phase `i < p` sums to `1/p`. -/
theorem normalize_filter_spec (k : List (List ℚ)) (p : ℕ) (hp : 0 < p)
    (hs : ∀ i < p, phase_sum k p i ≠ 0) :
    (∀ j < k.length, (normalize_filter k p).getD j [] =
        (k.getD j []).map (fun v => v / (phase_sum k p (j % p) * p))) ∧
    ∀ i < p, phase_sum (normalize_filter k p) p i = 1 / p := by
  constructor
  · intro j hj; exact normalize_filter_getD k p hp j hj
  · intro i hi
    unfold phase_sum
    rw [normalize_filter_length]
    have hmap : ∀ j ∈ (List.range k.length).filter (fun j => j % p == i),
        ((normalize_filter k p).getD j []).sum
          = (fun j => (k.getD j []).sum / (phase_sum k p i * p)) j := by
      intro j hj
      have hj1 : j < k.length := List.mem_range.mp (List.mem_filter.mp hj).1
      have hj2 : j % p = i := by simpa using (List.mem_filter.mp hj).2
      rw [normalize_filter_getD k p hp j hj1, hj2, sum_map_div]
    rw [List.map_congr_left hmap]
    have hmm : ((List.range k.length).filter (fun j => j % p == i)).map
        (fun j => (k.getD j []).sum / (phase_sum k p i * p))
        = (((List.range k.length).filter (fun j => j % p == i)).map
            (fun j => (k.getD j []).sum)).map (fun v => v / (phase_sum k p i * p)) := by
      rw [List.map_map]; rfl
    rw [hmm, sum_map_div,
      show (((List.range k.length).filter (fun j => j % p == i)).map
        (fun j => (k.getD j []).sum)).sum = phase_sum k p i from rfl]
    rw [div_mul_eq_div_div, div_self (hs i hi)]

/-- Witness for C1: the kernel `[[1, 1], [2, 2]]` with `p = 2` has phase sums
`2` and `4`, both nonzero, and after normalization phase `1` sums to
`1/2`. -/
theorem normalize_filter_spec_witness :
    phase_sum (normalize_filter [[(1:ℚ), 1], [2, 2]] 2) 2 1 = 1 / 2 :=
  (normalize_filter_spec [[(1:ℚ), 1], [2, 2]] 2 (by decide)
    (by intro i hi; interval_cases i <;> norm_num [phase_sum, List.range_succ])).2
    1 (by decide)

/-- C2 (code bug evidence): the source never guards against a phase whose sum
is exactly zero.  On the kernel `[[1, 1], [1, -1]]` with `p = 2` the second
phase sums to `0`; `normalize_filter` still performs the division and returns
a kernel rather than reporting a division-by-zero error.  (numpy's division
by the zero total yields non-finite entries and a mere `RuntimeWarning`; in
the `ℚ` embedding the same division yields `0` — in both semantics the call
returns normally, contradicting the claimed `DivisionByZero` failure.) -/
theorem normalize_filter_zero_phase_returns :
    normalize_filter [[(1:ℚ), 1], [1, -1]] 2 = [[1/4, 1/4], [0, 0]] := by
  simp only [normalize_filter, normalize_step, phase_sum]
  norm_num [List.range_succ, List.replicate]

/-- The grid list in closed form: when the sample count is neither negative
nor one, `_generate_x` returns the map of
`i ↦ -w/2 + w·i/(w·s)` over `0, …, w·s`. -/
lemma generate_x_eq (w s : ℤ) (h0 : ¬ w * s + 1 < 0) (h1 : ¬ w * s + 1 = 1) :
    (generate_x w s : Option (List ℚ)) =
      some ((List.range (w * s + 1).toNat).map
        (fun i : ℕ => -(w : ℚ) / 2 + (w : ℚ) * (i : ℚ) / ((w : ℚ) * (s : ℚ)))) := by
  unfold generate_x linspace
  rw [if_neg h0, if_neg h1]
  refine congrArg some (List.map_congr_left ?_)
  intro i hi
  have hden : (((w * s + 1 : ℤ) : ℚ) - 1) = (w : ℚ) * (s : ℚ) := by push_cast; ring
  rw [hden]
  ring

/-- C3 counterexample: at `width = 0`, `samples_per_unit = 2` the grid builder
does not fail — it returns the one-element coordinate sequence `[0]`
(`np.linspace(0.0, 0.0, 1)`). -/
theorem generate_x_zero_width_returns :
    (generate_x 0 2 : Option (List ℚ)) = some [0] := by
  norm_num [generate_x, linspace]

/-- C3 (amended): the grid builder performs no argument validation.  For
`width ≤ 0` or `samples_per_unit ≤ 0` it still returns a coordinate sequence
of length `width * samples_per_unit + 1` whenever that count is nonnegative,
and it fails only when the count is negative, where `np.linspace` rejects the
negative sample count. -/
theorem generate_x_no_validation (w s : ℤ) (h : w ≤ 0 ∨ s ≤ 0) :
    (0 ≤ w * s + 1 → ∃ l : List ℚ, (generate_x w s : Option (List ℚ)) = some l ∧
      l.length = (w * s + 1).toNat) ∧
    (w * s + 1 < 0 → (generate_x w s : Option (List ℚ)) = none) := by
  constructor
  · intro hge
    unfold generate_x linspace
    rw [if_neg (by omega : ¬ w * s + 1 < 0)]
    by_cases h1 : w * s + 1 = 1
    · rw [if_pos h1]
      exact ⟨_, rfl, by rw [h1]; rfl⟩
    · rw [if_neg h1]
      exact ⟨_, rfl, length_range_map _ _⟩
  · intro hlt
    unfold generate_x linspace
    rw [if_pos hlt]

/-- Witness for C3 (amended) at `width = 0`, `samples_per_unit = 2`: the
sample count is `1 ≥ 0` and a one-element sequence is returned. -/
theorem generate_x_no_validation_witness :
    ∃ l : List ℚ, (generate_x 0 2 : Option (List ℚ)) = some l ∧
      l.length = ((0 : ℤ) * 2 + 1).toNat :=
  (generate_x_no_validation 0 2 (Or.inl (by decide))).1 (by decide)

/-- C4: for positive `width` and `samples_per_unit` the grid builder returns
the sequence of `N = width * samples_per_unit + 1` evenly spaced values
`-w/2 + w·i/(w·s)` running from `-width/2` to `+width/2` with both endpoints
exact, satisfying `coords[i] = -coords[N-1-i]` for every `i`, and containing
`0` exactly when `N` is odd. -/
theorem generate_x_spec (w s : ℤ) (hw : 0 < w) (hs : 0 < s) :
    ∃ l : List ℚ, (generate_x w s : Option (List ℚ)) = some l ∧
      l.length = (w * s).toNat + 1 ∧
      (∀ i < l.length, l.getD i 0 =
        -(w : ℚ) / 2 + (w : ℚ) * i / ((w : ℚ) * (s : ℚ))) ∧
      l.getD 0 0 = -(w : ℚ) / 2 ∧
      l.getD (l.length - 1) 0 = (w : ℚ) / 2 ∧
      (∀ i < l.length, l.getD i 0 = -(l.getD (l.length - 1 - i) 0)) ∧
      ((0 : ℚ) ∈ l ↔ Odd (w * s + 1)) := by
  have hws : 0 < w * s := mul_pos hw hs
  set n : ℕ := (w * s).toNat with hn
  have hn1 : (n : ℤ) = w * s := Int.toNat_of_nonneg hws.le
  have hnq : (n : ℚ) = (w : ℚ) * (s : ℚ) := by
    have := congrArg (fun z : ℤ => (z : ℚ)) hn1
    push_cast at this
    exact this
  have hw0 : (w : ℚ) ≠ 0 := by exact_mod_cast hw.ne'
  have hs0 : (s : ℚ) ≠ 0 := by exact_mod_cast hs.ne'
  have hws0 : (w : ℚ) * (s : ℚ) ≠ 0 := mul_ne_zero hw0 hs0
  have htn : (w * s + 1).toNat = n + 1 := by omega
  have heq := generate_x_eq w s (by omega) (by omega)
  rw [htn] at heq
  set g : ℕ → ℚ :=
    fun i : ℕ => -(w : ℚ) / 2 + (w : ℚ) * (i : ℚ) / ((w : ℚ) * (s : ℚ)) with hg
  set l : List ℚ := (List.range (n + 1)).map g with hl
  have hlen : l.length = n + 1 := length_range_map _ _
  have hget : ∀ i < n + 1, l.getD i 0 = g i := fun i hi => getD_range_map _ _ _ _ hi
  refine ⟨l, heq, by rw [hlen], ?_, ?_, ?_, ?_, ?_⟩
  · intro i hi
    rw [hlen] at hi
    exact hget i hi
  · rw [hget 0 (Nat.succ_pos n)]
    simp [hg]
  · rw [hlen]
    simp only [Nat.add_sub_cancel]
    rw [hget n (Nat.lt_succ_self n)]
    rw [hg]
    simp only
    rw [hnq, mul_div_assoc, div_self hws0, mul_one]
    ring
  · intro i hi
    rw [hlen] at hi
    rw [hlen]
    simp only [Nat.add_sub_cancel]
    have hin : i ≤ n := Nat.lt_succ_iff.mp hi
    rw [hget i hi, hget (n - i) (Nat.lt_succ_of_le (Nat.sub_le n i)), hg]
    simp only
    have hcast : ((n - i : ℕ) : ℚ) = (w : ℚ) * (s : ℚ) - i := by
      rw [Nat.cast_sub hin, hnq]
    rw [hcast]
    field_simp
    ring
  · constructor
    · intro h0
      obtain ⟨i, hi, hfi⟩ := List.mem_map.mp h0
      have hiq : g i = 0 := hfi
      rw [hg] at hiq
      simp only at hiq
      have h2 : 2 * (i : ℚ) = (w : ℚ) * (s : ℚ) := by
        rw [mul_div_mul_left _ _ hw0] at hiq
        field_simp at hiq
        linarith
      have h2n : 2 * (i : ℚ) = (n : ℚ) := by rw [hnq]; exact h2
      have h2i : 2 * i = n := by exact_mod_cast h2n
      have hev : Even (w * s) := by
        rw [← hn1]
        have : Even n := ⟨i, by omega⟩
        exact_mod_cast this
      exact hev.add_one
    · intro hodd
      have hev : Even n := by
        have hevz : Even (w * s) := by
          rcases Int.even_or_odd (w * s) with he | ho
          · exact he
          · exact absurd hodd (by simpa using ho.add_one)
        rw [← hn1] at hevz
        exact_mod_cast hevz
      obtain ⟨t, ht⟩ := hev
      refine List.mem_map.mpr ⟨t, List.mem_range.mpr (by omega), ?_⟩
      rw [hg]
      simp only
      have htq : (w : ℚ) * (s : ℚ) = (t : ℚ) + (t : ℚ) := by
        rw [← hnq]
        exact_mod_cast congrArg (fun m : ℕ => (m : ℚ)) ht
      field_simp
      rw [htq]
      ring

/-- Witness for C4 at `width = 2`, `samples_per_unit = 2`: the grid
`[-1, -1/2, 0, 1/2, 1]` of length `5`, symmetric and containing `0`. -/
theorem generate_x_spec_witness :
    ∃ l : List ℚ, (generate_x 2 2 : Option (List ℚ)) = some l ∧
      l.length = ((2 : ℤ) * 2).toNat + 1 ∧
      (∀ i < l.length, l.getD i 0 =
        -((2 : ℤ) : ℚ) / 2 + ((2 : ℤ) : ℚ) * i / (((2 : ℤ) : ℚ) * ((2 : ℤ) : ℚ))) ∧
      l.getD 0 0 = -((2 : ℤ) : ℚ) / 2 ∧
      l.getD (l.length - 1) 0 = ((2 : ℤ) : ℚ) / 2 ∧
      (∀ i < l.length, l.getD i 0 = -(l.getD (l.length - 1 - i) 0)) ∧
      ((0 : ℚ) ∈ l ↔ Odd ((2 : ℤ) * 2 + 1)) :=
  generate_x_spec 2 2 (by decide) (by decide)

/-- C5: the Lanczos per-coordinate value is `sinc(x) * sinc(x/a)` whenever
`-a < x < a` (strict inequalities, where the rect mask is `1`) and is exactly
`0` whenever `|x| ≥ a`, including at the boundary points `x = -a` and
`x = a`, which the strict mask excludes. -/
theorem lanczos_point_spec (a : ℤ) (x : ℝ) :
    (-(a : ℝ) < x → x < (a : ℝ) →
      lanczos_point a x = sinc x * sinc (x / (a : ℝ))) ∧
    ((a : ℝ) ≤ |x| → lanczos_point a x = 0) := by
  constructor
  · intro h1 h2
    unfold lanczos_point rect_lanczos
    rw [if_pos ⟨h1, h2⟩, mul_one]
  · intro hge
    unfold lanczos_point rect_lanczos
    rw [if_neg, mul_zero]
    intro hcon
    have habs : |x| < (a : ℝ) := abs_lt.mpr ⟨hcon.1, hcon.2⟩
    linarith

/-- Witness for C5 at `a = 2`: inside the support at `x = 1/2` the value is
the sinc product, and at the boundary `x = 2` it is exactly `0`. -/
theorem lanczos_point_spec_witness :
    lanczos_point 2 (1/2) = sinc (1/2) * sinc (1/2 / ((2 : ℤ) : ℝ)) ∧
    lanczos_point 2 2 = 0 :=
  ⟨(lanczos_point_spec 2 (1/2)).1 (by norm_num) (by norm_num),
   (lanczos_point_spec 2 2).2 (by norm_num [abs_of_nonneg])⟩

/-- C6: the cubic-B-spline value is `2/3 − |x|² + |x|³/2` for
`0 ≤ |x| < 1` and `(2 − |x|³)/6` for `1 ≤ |x| < 2` — the formula exactly as
written in the source, not the standard `(2−|x|)³/6`; both the bicubic and
the cubic-B-spline values are exactly `0` for every `|x| ≥ 2` (the bicubic
second-branch polynomial vanishes identically at `|x| = 2`); and at the
`|x| = 1` boundary the two formula branches of each family agree with the
profile value, hence with each other. -/
theorem cubic_profiles_spec :
    (∀ x : ℚ, 0 ≤ |x| → |x| < 1 →
      cubicbspline_point x = 2/3 - |x|^2 + |x|^3/2) ∧
    (∀ x : ℚ, 1 ≤ |x| → |x| < 2 →
      cubicbspline_point x = (2 - |x|^3)/6) ∧
    (∀ x : ℚ, 2 ≤ |x| → cubicbspline_point x = 0) ∧
    (∀ a x : ℚ, 2 ≤ |x| → bicubic_point a x = 0) ∧
    ((2/3 - |(1:ℚ)|^2 + |(1:ℚ)|^3/2 = cubicbspline_point 1) ∧
      (cubicbspline_point 1 = (2 - |(1:ℚ)|^3)/6)) ∧
    (∀ a : ℚ, ((a+2)*|(1:ℚ)|^3 - (a+3)*|(1:ℚ)|^2 + 1 = bicubic_point a 1) ∧
      (bicubic_point a 1 = a*|(1:ℚ)|^3 - 5*a*|(1:ℚ)|^2 + 8*a*|(1:ℚ)| - 4*a)) := by
  refine ⟨?_, ?_, ?_, ?_, ?_, ?_⟩
  · intro x h0 h1
    rw [cubicbspline_point, if_pos ⟨h0, h1⟩]
    ring
  · intro x h1 h2
    rw [cubicbspline_point, if_neg (by rintro ⟨-, hlt⟩; linarith),
      if_pos ⟨h1, h2⟩]
    ring
  · intro x h2
    rw [cubicbspline_point, if_neg (by rintro ⟨-, hlt⟩; linarith),
      if_neg (by rintro ⟨-, hlt⟩; linarith)]
  · intro a x h2
    rw [bicubic_point]
    by_cases hle : |x| ≤ 1
    · linarith
    · rw [if_neg hle]
      by_cases hmid : 1 < |x| ∧ |x| ≤ 2
      · rw [if_pos hmid]
        have hx2 : |x| = 2 := le_antisymm hmid.2 h2
        rw [hx2]
        ring
      · rw [if_neg hmid]
  · constructor
    · rw [cubicbspline_point, if_neg (by norm_num), if_pos (by norm_num)]
      norm_num
    · rw [cubicbspline_point, if_neg (by norm_num), if_pos (by norm_num)]
      norm_num
  · intro a
    constructor
    · rw [bicubic_point, if_pos (by norm_num)]
      simp only [abs_one]
      ring
    · rw [bicubic_point, if_pos (by norm_num)]
      simp only [abs_one]
      ring

/-- Witness for C6 at `x = 1/2`, `x = 3/2`, `x = 3` and at the bicubic
boundary point `x = 2` with `a = -1/2`. -/
theorem cubic_profiles_spec_witness :
    cubicbspline_point (1/2) = 2/3 - |(1:ℚ)/2|^2 + |(1:ℚ)/2|^3/2 ∧
    cubicbspline_point (3/2) = (2 - |(3:ℚ)/2|^3)/6 ∧
    cubicbspline_point 3 = 0 ∧
    bicubic_point (-1/2) 2 = 0 :=
  ⟨(cubic_profiles_spec.1 (1/2)) (abs_nonneg _) (by norm_num [abs_of_nonneg]),
   (cubic_profiles_spec.2.1 (3/2)) (by norm_num [abs_of_nonneg]) (by norm_num [abs_of_nonneg]),
   (cubic_profiles_spec.2.2.1 3) (by norm_num [abs_of_nonneg]),
   (cubic_profiles_spec.2.2.2.1 (-1/2) 2) (by norm_num [abs_of_nonneg])⟩

/-- C7: for every 1D profile of length `N`, `_create_2d_separable_func`
returns an `N×N` matrix with `result[i][j] = profile[i] * profile[j]`; the
matrix is symmetric and its diagonal entries are the squares of the profile
entries. -/
theorem create_2d_separable_func_spec (f : List ℚ) :
    (create_2d_separable_func f).length = f.length ∧
    (∀ i < f.length, ((create_2d_separable_func f).getD i []).length = f.length) ∧
    (∀ i j, i < f.length → j < f.length →
      entry2d (create_2d_separable_func f) i j = f.getD i 0 * f.getD j 0) ∧
    (∀ i j, i < f.length → j < f.length →
      entry2d (create_2d_separable_func f) i j
        = entry2d (create_2d_separable_func f) j i) ∧
    (∀ i < f.length, entry2d (create_2d_separable_func f) i i = (f.getD i 0)^2) := by
  have hget : ∀ i < f.length, (create_2d_separable_func f).getD i [] =
      (List.range f.length).map (fun py => f.getD i 0 * f.getD py 0) :=
    fun i hi => getD_range_map _ _ _ _ hi
  have hentry : ∀ i j, i < f.length → j < f.length →
      entry2d (create_2d_separable_func f) i j = f.getD i 0 * f.getD j 0 := by
    intro i j hi hj
    rw [entry2d, hget i hi, getD_range_map _ _ _ _ hj]
  refine ⟨length_range_map _ _, ?_, hentry, ?_, ?_⟩
  · intro i hi
    rw [hget i hi]
    exact length_range_map _ _
  · intro i j hi hj
    rw [hentry i j hi hj, hentry j i hj hi, mul_comm]
  · intro i hi
    rw [hentry i i hi hi, sq]

/-- Witness for C7 on the profile `[1, 2]`: the `(0, 1)` entry is the
product of entries `0` and `1`. -/
theorem create_2d_separable_func_spec_witness :
    entry2d (create_2d_separable_func [(1:ℚ), 2]) 0 1
      = [(1:ℚ), 2].getD 0 0 * [(1:ℚ), 2].getD 1 0 :=
  (create_2d_separable_func_spec [1, 2]).2.2.1 0 1 (by decide) (by decide)

/-- Whenever the sample count is nonnegative the grid builder returns some
list. -/
lemma generate_x_isSome {α : Type} [Field α] (w s : ℤ) (h : 0 ≤ w * s + 1) :
    ∃ l : List α, generate_x w s = some l := by
  unfold generate_x linspace
  rw [if_neg (by omega : ¬ w * s + 1 < 0)]
  by_cases h1 : w * s + 1 = 1
  · rw [if_pos h1]; exact ⟨_, rfl⟩
  · rw [if_neg h1]; exact ⟨_, rfl⟩

/-- Reading a mapped list below its length applies the function to the
original element. -/
lemma getD_map_lt {α β : Type} (f : α → β) (l : List α) (i : ℕ)
    (h : i < l.length) (d0 : α) (d : β) :
    (l.map f).getD i d = f (l.getD i d0) := by
  rw [List.getD_eq_getElem _ _ (by simpa using h), List.getD_eq_getElem _ _ h,
    List.getElem_map]

/-- C8: the Gaussian family computes its 2D kernel directly on the 2D grid,
every entry being `1/(2πσ²) · exp(−(x_i² + x_j²)/(2σ²))` for the grid
coordinates `x_i, x_j`; in particular `generate_gaussian_2d(width=2,
samples_per_unit=2, sigma=1)` has center entry (index `(2, 2)` of the `5×5`
kernel, at coordinate `(0, 0)`) equal to `1/(2π)`. -/
theorem generate_gaussian_2d_spec :
    (∀ (w s : ℤ) (σ : ℝ), 0 < w → 0 < s →
      ∃ (x : List ℝ) (k : List (List ℝ)),
        (generate_x w s : Option (List ℝ)) = some x ∧
        generate_gaussian_2d w s σ = some k ∧
        ∀ i j, i < x.length → j < x.length →
          (k.getD i []).getD j 0 =
            1 / (2 * Real.pi * (σ * σ)) *
              Real.exp (-(x.getD i 0 * x.getD i 0 + x.getD j 0 * x.getD j 0) /
                (2 * (σ * σ)))) ∧
    ∃ k : List (List ℝ), generate_gaussian_2d 2 2 1 = some k ∧
      (k.getD 2 []).getD 2 0 = 1 / (2 * Real.pi) := by
  constructor
  · intro w s σ hw hs
    have hws : 0 < w * s := mul_pos hw hs
    obtain ⟨x, hx⟩ := @generate_x_isSome ℝ _ w s (by omega)
    refine ⟨x, x.map (fun xi => x.map (fun xj => gaussian_entry σ xi xj)), hx, ?_, ?_⟩
    · rw [generate_gaussian_2d, hx]; rfl
    · intro i j hi hj
      rw [getD_map_lt _ _ _ hi 0 [], getD_map_lt _ _ _ hj 0 0]
      rfl
  · have hr : List.range (Int.toNat ((2:ℤ) * 2 + 1)) = [0, 1, 2, 3, 4] := rfl
    have hx : (generate_x 2 2 : Option (List ℝ)) = some [-1, -1/2, 0, 1/2, 1] := by
      simp only [generate_x, linspace, hr]
      norm_num
    refine ⟨_, by rw [generate_gaussian_2d, hx]; rfl, ?_⟩
    show (([(-1 : ℝ), -1/2, 0, 1/2, 1].map
      (fun xi => [(-1 : ℝ), -1/2, 0, 1/2, 1].map
        (fun xj => gaussian_entry 1 xi xj))).getD 2 []).getD 2 0 = 1 / (2 * Real.pi)
    norm_num [gaussian_entry, Real.exp_zero]
/-- C9 counterexample: `generate_lanczos_1d(width=2, samples_per_unit=1,
a=-1)` — a non-positive Lanczos parameter — does not fail: it returns the
all-zero profile `[0, 0, 0]` (the rect mask `-a < x < a` is empty for
`a < 0`, and every `x/a` and `sinc` value is finite, so the product with the
zero mask is exactly `0`). -/
theorem generate_lanczos_negative_a_returns :
    generate_lanczos_1d 2 1 (-1) = some [0, 0, 0] := by
  have hr : List.range (Int.toNat ((2:ℤ) * 1 + 1)) = [0, 1, 2] := rfl
  have hx : (generate_x 2 1 : Option (List ℝ)) = some [-1, 0, 1] := by
    simp only [generate_x, linspace, hr]
    norm_num
  rw [generate_lanczos_1d, hx]
  simp only [Option.map_some']
  congr 1
  have hrect : ∀ y : ℝ, rect_lanczos (-1) y = 0 := by
    intro y
    rw [rect_lanczos, if_neg]
    push_cast
    rintro ⟨h1, h2⟩
    linarith
  simp [lanczos_point, hrect]

/-- C9 (amended): the evaluators perform no parameter validation.  For any
`a < 0` the Lanczos evaluator returns an all-zero profile instead of failing,
and for any `sigma < 0` the Gaussian evaluator returns a kernel — the same
kernel as for `-sigma`, since `sigma` enters only through `sigma²`.  (At
`a = 0` exactly, the source computes `np.sinc(x / 0)`, which is NaN, and
`NaN * 0.0 = NaN`, so the profile returned is all-NaN — still no
`InvalidArgument`; that NaN path has no counterpart in the ℝ embedding, so
this theorem keeps to `a < 0`.  At `sigma = 0` exactly, the Python expression
`1 / (2 * np.pi * 0.0)` raises `ZeroDivisionError`, not `InvalidArgument`.) -/
theorem evaluators_no_validation :
    (∀ w s a : ℤ, a < 0 → 0 ≤ w * s + 1 →
      ∃ l : List ℝ, generate_lanczos_1d w s a = some l ∧ ∀ v ∈ l, v = 0) ∧
    (∀ (w s : ℤ) (σ : ℝ), σ < 0 → 0 ≤ w * s + 1 →
      ∃ k : List (List ℝ), generate_gaussian_2d w s σ = some k ∧
        generate_gaussian_2d w s (-σ) = some k) := by
  constructor
  · intro w s a ha hn
    obtain ⟨x, hx⟩ := @generate_x_isSome ℝ _ w s hn
    refine ⟨x.map (lanczos_point a), by rw [generate_lanczos_1d, hx]; rfl, ?_⟩
    intro v hv
    obtain ⟨y, hy, hvy⟩ := List.mem_map.mp hv
    have haR : (a : ℝ) < 0 := by exact_mod_cast ha
    have hrect : rect_lanczos a y = 0 := by
      rw [rect_lanczos, if_neg]
      rintro ⟨h1, h2⟩
      linarith
    rw [← hvy, lanczos_point, hrect, mul_zero]
  · intro w s σ hσ hn
    obtain ⟨x, hx⟩ := @generate_x_isSome ℝ _ w s hn
    refine ⟨x.map (fun xi => x.map (fun xj => gaussian_entry σ xi xj)),
      by rw [generate_gaussian_2d, hx]; rfl, ?_⟩
    rw [generate_gaussian_2d, hx]
    simp only [Option.map_some']
    congr 1
    refine List.map_congr_left ?_
    intro xi _
    refine List.map_congr_left ?_
    intro xj _
    rw [gaussian_entry, gaussian_entry, neg_mul_neg]

/-- Witness for C9 (amended) at `a = -2` and `sigma = -1`. -/
theorem evaluators_no_validation_witness :
    (∃ l : List ℝ, generate_lanczos_1d 3 1 (-2) = some l ∧ ∀ v ∈ l, v = 0) ∧
    ∃ k : List (List ℝ), generate_gaussian_2d 2 2 (-1) = some k ∧
      generate_gaussian_2d 2 2 (-(-1)) = some k :=
  ⟨evaluators_no_validation.1 3 1 (-2) (by decide) (by decide),
   evaluators_no_validation.2 2 2 (-1) (by norm_num) (by decide)⟩

/-- Witness for C8 at `width = 1`, `samples_per_unit = 1`, `sigma = 1`. -/
theorem generate_gaussian_2d_spec_witness :
    ∃ (x : List ℝ) (k : List (List ℝ)),
      (generate_x 1 1 : Option (List ℝ)) = some x ∧
      generate_gaussian_2d 1 1 1 = some k ∧
      ∀ i j, i < x.length → j < x.length →
        (k.getD i []).getD j 0 =
          1 / (2 * Real.pi * ((1 : ℝ) * 1)) *
            Real.exp (-(x.getD i 0 * x.getD i 0 + x.getD j 0 * x.getD j 0) /
              (2 * ((1 : ℝ) * 1))) :=
  generate_gaussian_2d_spec.1 1 1 1 (by decide) (by decide)

end Sirius
